import Mathlib

/-!
Verification of the currency-rate validation state machine of
`voliva/currencies-demo-2` (src/src/App.tsx), shallowly embedded in Lean 4.

Numbers (`number` in TypeScript) are modelled as `ℚ`.  A JavaScript object
field that may be `undefined` (because an object was built by spreading a
missing entry, `{...prev[id], ...}` with `prev[id] === undefined`) is
modelled as an `Option ℚ` whose `none` stands for `undefined`.  The rate map
`Record<string, CurrencyRate>` is modelled as an association list that keeps
JavaScript's object semantics: `{...prev, [id]: v}` replaces the entry for
`id` in place when present and appends it otherwise, and reading a missing
key yields `undefined` (`none`).
-/

namespace CurrenciesDemo

/-- `enum CurrencyRateState { ACCEPTED, DIRTY, IN_PROGRESS }` (App.tsx 28-32). -/
inductive CurrencyRateState where
  | accepted
  | dirty
  | inProgress
deriving DecidableEq, Repr

/-- `interface CurrencyRate { rate; state; confirmedRate }` (App.tsx 34-38).
`rate` and `confirmedRate` are `Option ℚ` because the reducer can build an
entry by spreading `undefined` (missing key), leaving those fields absent;
`state` is always written explicitly by every branch of the reducer. -/
structure CurrencyRate where
  rate : Option ℚ
  state : CurrencyRateState
  confirmedRate : Option ℚ
deriving DecidableEq, Repr

/-- The rate map `Record<string, CurrencyRate>`. -/
abbrev RatesState := List (String × CurrencyRate)

/-- Reading `prev[id]`: first entry for `id`, `none` for `undefined`. -/
def lookupRate : RatesState → String → Option CurrencyRate
  | [], _ => none
  | (k, v) :: rest, id => if k = id then some v else lookupRate rest id

/-- `{...prev, [id]: e}`: replace in place when the key exists, append
otherwise (JavaScript object key-order semantics). -/
def setEntry : RatesState → String → CurrencyRate → RatesState
  | [], id, e => [(id, e)]
  | (k, v) :: rest, id, e =>
      if k = id then (k, e) :: rest else (k, v) :: setEntry rest id e

/-- The three members of `type RatesAction` (App.tsx 60-72). -/
inductive RatesAction where
  | editCurrencyRate (id : String) (rate : ℚ)
  | startIsValidRequest (id : String)
  | isValidResult (id : String) (result : Bool)
deriving DecidableEq, Repr

/-- The currency id an action addresses (`action.payload.id` / `action.payload`). -/
def RatesAction.target : RatesAction → String
  | .editCurrencyRate id _ => id
  | .startIsValidRequest id => id
  | .isValidResult id _ => id

/-- `ratesReducer` (App.tsx 73-107).  Returns `none` exactly where the
JavaScript code throws a `TypeError`: the `IsValidResult` branch reads
`prev[action.payload.id].rate` and crashes when that entry is `undefined`.
The `EditCurrencyRate` and `StartIsValidRequest` branches spread a possibly
`undefined` entry, which silently yields an object whose unwritten fields
are absent (`none`). -/
def ratesReducer (prev : RatesState) (action : RatesAction) : Option RatesState :=
  match action with
  | .editCurrencyRate id rate =>
      some (setEntry prev id
        { rate := some rate
          state := .dirty
          confirmedRate := (lookupRate prev id).bind (·.confirmedRate) })
  | .startIsValidRequest id =>
      some (setEntry prev id
        { rate := (lookupRate prev id).bind (·.rate)
          state := .inProgress
          confirmedRate := (lookupRate prev id).bind (·.confirmedRate) })
  | .isValidResult id result =>
      match lookupRate prev id with
      | none => none
      | some previousState =>
          some (setEntry prev id
            { rate := if result then previousState.rate else previousState.confirmedRate
              state := .accepted
              confirmedRate :=
                if result then previousState.rate else previousState.confirmedRate })

/-- `initialCurrencyRatesState` (App.tsx 40-52), parameterised by the seed
list `Object.entries(initialCurrencyRates)`; `initialCurrencyRates` itself
lives in `./utils`, outside src/, so the concrete seed is a parameter. -/
def initialCurrencyRatesState (seed : List (String × ℚ)) : RatesState :=
  seed.map fun p => (p.1, { rate := some p.2, state := .accepted, confirmedRate := some p.2 })

/-- Apply a sequence of dispatched actions, stopping (`none`) at a crash. -/
def applyAll (s : RatesState) : List RatesAction → Option RatesState
  | [] => some s
  | a :: rest =>
      match ratesReducer s a with
      | none => none
      | some s' => applyAll s' rest

/-- The confirmed rate a consumer reads for key `id`:
`prev[id].confirmedRate`, with `none` for a missing key or absent field. -/
def confirmedRateOf (s : RatesState) (id : String) : Option ℚ :=
  (lookupRate s id).bind (·.confirmedRate)

/-- The lifecycle flag of the entry for `id`, if the entry exists. -/
def entryStateOf (s : RatesState) (id : String) : Option CurrencyRateState :=
  (lookupRate s id).map (·.state)

/-! ### Association-list lemmas -/

theorem lookupRate_setEntry_self (s : RatesState) (id : String) (e : CurrencyRate) :
    lookupRate (setEntry s id e) id = some e := by
  induction s with
  | nil => simp [setEntry, lookupRate]
  | cons p rest ih =>
      obtain ⟨k, v⟩ := p
      by_cases hk : k = id
      · simp [setEntry, lookupRate, hk]
      · simp [setEntry, lookupRate, hk, ih]

theorem lookupRate_setEntry_ne (s : RatesState) (id j : String) (e : CurrencyRate)
    (hne : j ≠ id) : lookupRate (setEntry s id e) j = lookupRate s j := by
  have hid : ¬id = j := fun h => hne h.symm
  induction s with
  | nil => simp [setEntry, lookupRate, hid]
  | cons p rest ih =>
      obtain ⟨k, v⟩ := p
      by_cases hk : k = id
      · subst hk
        simp [setEntry, lookupRate, hid]
      · by_cases hj : k = j
        · simp [setEntry, lookupRate, hk, hj, hne]
        · simp [setEntry, lookupRate, hk, hj, ih]

theorem mem_setEntry {s : RatesState} {id : String} {e : CurrencyRate}
    {p : String × CurrencyRate} (hp : p ∈ setEntry s id e) :
    p = (id, e) ∨ p ∈ s := by
  induction s with
  | nil => simpa [setEntry] using hp
  | cons q rest ih =>
      obtain ⟨k, v⟩ := q
      by_cases hk : k = id
      · subst hk
        rcases (by simpa [setEntry] using hp : p = (k, e) ∨ p ∈ rest) with h | h
        · exact Or.inl (by simpa using h)
        · exact Or.inr (List.mem_cons_of_mem _ h)
      · rcases (by simpa [setEntry, hk] using hp : p = (k, v) ∨ p ∈ setEntry rest id e) with h | h
        · exact Or.inr (by simp [h])
        · rcases ih h with h' | h'
          · exact Or.inl h'
          · exact Or.inr (List.mem_cons_of_mem _ h')

theorem lookupRate_mem {s : RatesState} {id : String} {e : CurrencyRate}
    (h : lookupRate s id = some e) : (id, e) ∈ s := by
  induction s with
  | nil => simp [lookupRate] at h
  | cons p rest ih =>
      obtain ⟨k, v⟩ := p
      by_cases hk : k = id
      · subst hk
        simp [lookupRate] at h
        simp [h]
      · simp [lookupRate, hk] at h
        exact List.mem_cons_of_mem _ (ih h)

/-! ### Characterisation of the reducer's branches -/

theorem ratesReducer_edit (s : RatesState) (id : String) (r : ℚ) :
    ratesReducer s (.editCurrencyRate id r)
      = some (setEntry s id
          { rate := some r
            state := .dirty
            confirmedRate := (lookupRate s id).bind (·.confirmedRate) }) := rfl

theorem ratesReducer_start (s : RatesState) (id : String) :
    ratesReducer s (.startIsValidRequest id)
      = some (setEntry s id
          { rate := (lookupRate s id).bind (·.rate)
            state := .inProgress
            confirmedRate := (lookupRate s id).bind (·.confirmedRate) }) := rfl

theorem ratesReducer_resolve (s : RatesState) (id : String) (result : Bool)
    (e : CurrencyRate) (h : lookupRate s id = some e) :
    ratesReducer s (.isValidResult id result)
      = some (setEntry s id
          { rate := if result then e.rate else e.confirmedRate
            state := .accepted
            confirmedRate := if result then e.rate else e.confirmedRate }) := by
  simp [ratesReducer, h]

theorem ratesReducer_resolve_missing (s : RatesState) (id : String) (result : Bool)
    (h : lookupRate s id = none) :
    ratesReducer s (.isValidResult id result) = none := by
  simp [ratesReducer, h]

/-- Every transition leaves the entries of all other keys untouched. -/
theorem lookupRate_ratesReducer_ne {s s' : RatesState} {a : RatesAction}
    (h : ratesReducer s a = some s') (j : String) (hj : j ≠ a.target) :
    lookupRate s' j = lookupRate s j := by
  cases a with
  | editCurrencyRate id r =>
      simp only [RatesAction.target] at hj
      rw [ratesReducer_edit] at h
      injection h with h
      subst h
      exact lookupRate_setEntry_ne _ _ _ _ hj
  | startIsValidRequest id =>
      simp only [RatesAction.target] at hj
      rw [ratesReducer_start] at h
      injection h with h
      subst h
      exact lookupRate_setEntry_ne _ _ _ _ hj
  | isValidResult id result =>
      simp only [RatesAction.target] at hj
      cases hle : lookupRate s id with
      | none => rw [ratesReducer_resolve_missing s id result hle] at h; cases h
      | some e =>
          rw [ratesReducer_resolve s id result e hle] at h
          injection h with h
          subst h
          exact lookupRate_setEntry_ne _ _ _ _ hj

/-- An edit never changes the confirmed rate read for any key (even the
edited one): spreading the old entry keeps its `confirmedRate`, and a
missing entry stays without one. -/
theorem confirmedRateOf_after_edit (s : RatesState) (id : String) (r : ℚ)
    (s' : RatesState) (h : ratesReducer s (.editCurrencyRate id r) = some s')
    (j : String) : confirmedRateOf s' j = confirmedRateOf s j := by
  rw [ratesReducer_edit] at h
  injection h with h
  subst h
  by_cases hj : j = id
  · subst hj
    simp [confirmedRateOf, lookupRate_setEntry_self]
  · simp [confirmedRateOf, lookupRate_setEntry_ne _ _ _ _ hj]

/-- `StartIsValidRequest` never changes the confirmed rate read for any key. -/
theorem confirmedRateOf_after_start (s : RatesState) (id : String)
    (s' : RatesState) (h : ratesReducer s (.startIsValidRequest id) = some s')
    (j : String) : confirmedRateOf s' j = confirmedRateOf s j := by
  rw [ratesReducer_start] at h
  injection h with h
  subst h
  by_cases hj : j = id
  · subst hj
    simp [confirmedRateOf, lookupRate_setEntry_self]
  · simp [confirmedRateOf, lookupRate_setEntry_ne _ _ _ _ hj]

/-! ### Reachability and the Accepted-invariant -/

/-- Every entry of the seeded initial map is Accepted with equal rates. -/
theorem lookupRate_initial (seed : List (String × ℚ)) (id : String) (e : CurrencyRate)
    (h : lookupRate (initialCurrencyRatesState seed) id = some e) :
    ∃ r : ℚ, e = { rate := some r, state := .accepted, confirmedRate := some r } := by
  induction seed with
  | nil => simp [initialCurrencyRatesState, lookupRate] at h
  | cons p rest ih =>
      rcases p with ⟨k, r⟩
      by_cases hk : k = id
      · refine ⟨r, ?_⟩
        simp [initialCurrencyRatesState, lookupRate, hk] at h
        exact h.symm
      · apply ih
        simpa [initialCurrencyRatesState, lookupRate, hk] using h

/-- The invariant of §8: `status == Accepted` implies `rate == confirmedRate`. -/
def AcceptedImpliesConfirmed (s : RatesState) : Prop :=
  ∀ id e, lookupRate s id = some e → e.state = .accepted → e.rate = e.confirmedRate

/-- States reachable from the initial map by dispatching (non-crashing)
`RatesAction`s through `ratesReducer`. -/
inductive ReachableRates (seed : List (String × ℚ)) : RatesState → Prop where
  | init : ReachableRates seed (initialCurrencyRatesState seed)
  | step : ∀ {s : RatesState} {a : RatesAction} {s' : RatesState},
      ReachableRates seed s → ratesReducer s a = some s' → ReachableRates seed s'

theorem acceptedInv_init (seed : List (String × ℚ)) :
    AcceptedImpliesConfirmed (initialCurrencyRatesState seed) := by
  intro id e hlook _
  obtain ⟨r, hr⟩ := lookupRate_initial seed id e hlook
  subst hr
  rfl

theorem acceptedInv_preserved {s : RatesState} {a : RatesAction} {s' : RatesState}
    (hinv : AcceptedImpliesConfirmed s) (h : ratesReducer s a = some s') :
    AcceptedImpliesConfirmed s' := by
  intro j e hlook hacc
  cases a with
  | editCurrencyRate id r =>
      rw [ratesReducer_edit] at h
      injection h with h
      subst h
      by_cases hj : j = id
      · subst hj
        rw [lookupRate_setEntry_self] at hlook
        injection hlook with hlook
        subst hlook
        simp at hacc
      · exact hinv j e (by rwa [lookupRate_setEntry_ne _ _ _ _ hj] at hlook) hacc
  | startIsValidRequest id =>
      rw [ratesReducer_start] at h
      injection h with h
      subst h
      by_cases hj : j = id
      · subst hj
        rw [lookupRate_setEntry_self] at hlook
        injection hlook with hlook
        subst hlook
        simp at hacc
      · exact hinv j e (by rwa [lookupRate_setEntry_ne _ _ _ _ hj] at hlook) hacc
  | isValidResult id result =>
      cases hle : lookupRate s id with
      | none => rw [ratesReducer_resolve_missing s id result hle] at h; cases h
      | some old =>
          rw [ratesReducer_resolve s id result old hle] at h
          injection h with h
          subst h
          by_cases hj : j = id
          · subst hj
            rw [lookupRate_setEntry_self] at hlook
            injection hlook with hlook
            subst hlook
            rfl
          · exact hinv j e (by rwa [lookupRate_setEntry_ne _ _ _ _ hj] at hlook) hacc

theorem acceptedInv_reachable {seed : List (String × ℚ)} {s : RatesState}
    (h : ReachableRates seed s) : AcceptedImpliesConfirmed s := by
  induction h with
  | init => exact acceptedInv_init seed
  | step _ hred ih => exact acceptedInv_preserved ih hred

/-- C1: in every state reachable from the initial state via the three
transitions (`EditCurrencyRate`, `StartIsValidRequest`, `IsValidResult`),
every entry whose status is Accepted has `rate == confirmedRate`. -/
theorem accepted_implies_rate_eq_confirmed (seed : List (String × ℚ)) (s : RatesState)
    (hreach : ReachableRates seed s) (id : String) (e : CurrencyRate)
    (hlook : lookupRate s id = some e) (hacc : e.state = .accepted) :
    e.rate = e.confirmedRate :=
  acceptedInv_reachable hreach id e hlook hacc

-- Witness for C1: the initial entry for "USD" is Accepted and balanced.
theorem accepted_implies_rate_eq_confirmed_witness :
    lookupRate (initialCurrencyRatesState [("USD", 2)]) "USD"
        = some { rate := some 2, state := .accepted, confirmedRate := some 2 }
    ∧ ({ rate := some 2, state := .accepted, confirmedRate := some 2 } : CurrencyRate).rate
        = ({ rate := some 2, state := .accepted, confirmedRate := some 2 } : CurrencyRate).confirmedRate :=
  ⟨by decide, accepted_implies_rate_eq_confirmed [("USD", 2)] _ ReachableRates.init "USD" _
    (by decide) rfl⟩

/-- The displayed/editable rate read for key `id`. -/
def rateOf (s : RatesState) (id : String) : Option ℚ :=
  (lookupRate s id).bind (·.rate)

/-- C2: the accept branch of `IsValidResult` confirms whatever the entry's
`rate` field holds at resolution time; in the race scenario
Edit(USD, 1.2) → Start → Edit(USD, 1.3) → resolve accepted, the confirmed
rate ends up 1.3 — from any starting state. -/
theorem resolve_accept_uses_rate_at_resolution :
    (∀ (s : RatesState) (id : String) (e : CurrencyRate),
        lookupRate s id = some e →
        (ratesReducer s (.isValidResult id true)).bind (fun s' => confirmedRateOf s' id)
          = e.rate)
    ∧ ∀ s : RatesState,
        (applyAll s
            [.editCurrencyRate "USD" (6/5), .startIsValidRequest "USD",
             .editCurrencyRate "USD" (13/10), .isValidResult "USD" true]).bind
          (fun s' => confirmedRateOf s' "USD") = some (13/10) := by
  constructor
  · intro s id e hlook
    rw [ratesReducer_resolve s id true e hlook]
    simp [confirmedRateOf, lookupRate_setEntry_self]
  · intro s
    simp [applyAll, ratesReducer, lookupRate_setEntry_self, confirmedRateOf]

-- Witness for C2: accepting a validation for the seeded "USD" entry.
theorem resolve_accept_uses_rate_at_resolution_witness :
    lookupRate (initialCurrencyRatesState [("USD", 2)]) "USD"
        = some { rate := some 2, state := .accepted, confirmedRate := some 2 }
    ∧ (ratesReducer (initialCurrencyRatesState [("USD", 2)]) (.isValidResult "USD" true)).bind
        (fun s' => confirmedRateOf s' "USD") = some 2 :=
  ⟨by decide, resolve_accept_uses_rate_at_resolution.1 (initialCurrencyRatesState [("USD", 2)])
    "USD" { rate := some 2, state := .accepted, confirmedRate := some 2 } (by decide)⟩

/-- C3: the reject branch of `IsValidResult` reverts `rate` to
`confirmedRate`, keeps `confirmedRate`, and marks the entry Accepted; in
particular, starting from a confirmed rate of 1.1, Edit(USD, 1.2) followed
by a rejected resolution leaves `rate == confirmedRate == 1.1`. -/
theorem resolve_reject_reverts_to_confirmed :
    (∀ (s : RatesState) (id : String) (e : CurrencyRate),
        lookupRate s id = some e →
        (ratesReducer s (.isValidResult id false)).bind (fun s' => lookupRate s' id)
          = some { rate := e.confirmedRate, state := .accepted
                   confirmedRate := e.confirmedRate })
    ∧ ∀ (s : RatesState) (e : CurrencyRate),
        lookupRate s "USD" = some e → e.confirmedRate = some (11/10) →
        (applyAll s [.editCurrencyRate "USD" (6/5), .isValidResult "USD" false]).bind
            (fun s' => rateOf s' "USD") = some (11/10)
        ∧ (applyAll s [.editCurrencyRate "USD" (6/5), .isValidResult "USD" false]).bind
            (fun s' => confirmedRateOf s' "USD") = some (11/10) := by
  constructor
  · intro s id e hlook
    rw [ratesReducer_resolve s id false e hlook]
    simp [lookupRate_setEntry_self]
  · intro s e hlook hconf
    constructor
    · simp [applyAll, ratesReducer, lookupRate_setEntry_self, rateOf, hlook, hconf]
    · simp [applyAll, ratesReducer, lookupRate_setEntry_self, confirmedRateOf, hlook, hconf]

-- Witness for C3: the reject path on a seed with confirmed rate 1.1.
theorem resolve_reject_reverts_to_confirmed_witness :
    lookupRate (initialCurrencyRatesState [("USD", 11/10)]) "USD"
        = some { rate := some (11/10), state := .accepted, confirmedRate := some (11/10) }
    ∧ (applyAll (initialCurrencyRatesState [("USD", 11/10)])
          [.editCurrencyRate "USD" (6/5), .isValidResult "USD" false]).bind
        (fun s' => rateOf s' "USD") = some (11/10) :=
  ⟨by simp [initialCurrencyRatesState, lookupRate],
    (resolve_reject_reverts_to_confirmed.2 (initialCurrencyRatesState [("USD", 11/10)])
      { rate := some (11/10), state := .accepted, confirmedRate := some (11/10) }
      (by simp [initialCurrencyRatesState, lookupRate]) rfl).1⟩

/-- C6: `EditCurrencyRate` sets the entry's rate to the new value and its
status to Dirty while keeping its `confirmedRate`; and neither a raw edit
nor `StartIsValidRequest` ever changes the confirmed rate read for any key
— only `IsValidResult` does. -/
theorem edit_sets_dirty_preserves_confirmed :
    (∀ (s : RatesState) (id : String) (r : ℚ) (e : CurrencyRate),
        lookupRate s id = some e →
        (ratesReducer s (.editCurrencyRate id r)).bind (fun s' => lookupRate s' id)
          = some { rate := some r, state := .dirty, confirmedRate := e.confirmedRate })
    ∧ (∀ (s : RatesState) (id : String) (r : ℚ) (s' : RatesState),
        ratesReducer s (.editCurrencyRate id r) = some s' →
        ∀ j, confirmedRateOf s' j = confirmedRateOf s j)
    ∧ ∀ (s : RatesState) (id : String) (s' : RatesState),
        ratesReducer s (.startIsValidRequest id) = some s' →
        ∀ j, confirmedRateOf s' j = confirmedRateOf s j := by
  refine ⟨?_, confirmedRateOf_after_edit, confirmedRateOf_after_start⟩
  intro s id r e hlook
  rw [ratesReducer_edit]
  simp [lookupRate_setEntry_self, hlook]

-- Witness for C6: editing the seeded "USD" entry to 3.
theorem edit_sets_dirty_preserves_confirmed_witness :
    lookupRate (initialCurrencyRatesState [("USD", 2)]) "USD"
        = some { rate := some 2, state := .accepted, confirmedRate := some 2 }
    ∧ (ratesReducer (initialCurrencyRatesState [("USD", 2)]) (.editCurrencyRate "USD" 3)).bind
        (fun s' => lookupRate s' "USD")
        = some { rate := some 3, state := .dirty, confirmedRate := some 2 } :=
  ⟨by decide, edit_sets_dirty_preserves_confirmed.1 (initialCurrencyRatesState [("USD", 2)])
    "USD" 3 { rate := some 2, state := .accepted, confirmedRate := some 2 } (by decide)⟩

/-- C10: every `RatesAction` leaves the entry of every key other than its
target exactly as it was. -/
theorem reducer_frame_other_keys (s : RatesState) (a : RatesAction) (s' : RatesState)
    (h : ratesReducer s a = some s') (j : String) (hj : j ≠ a.target) :
    lookupRate s' j = lookupRate s j :=
  lookupRate_ratesReducer_ne h j hj

-- Witness for C10: editing "USD" leaves the "EUR" entry untouched.
theorem reducer_frame_other_keys_witness :
    ratesReducer (initialCurrencyRatesState [("USD", 2), ("EUR", 3)])
        (.editCurrencyRate "USD" 5)
      = some [("USD", { rate := some 5, state := .dirty, confirmedRate := some 2 }),
              ("EUR", { rate := some 3, state := .accepted, confirmedRate := some 3 })]
    ∧ "EUR" ≠ (RatesAction.editCurrencyRate "USD" 5).target
    ∧ lookupRate [("USD", { rate := some 5, state := .dirty, confirmedRate := some 2 }),
          ("EUR", { rate := some 3, state := .accepted, confirmedRate := some 3 })] "EUR"
        = lookupRate (initialCurrencyRatesState [("USD", 2), ("EUR", 3)]) "EUR" :=
  ⟨by decide, by decide,
    reducer_frame_other_keys (initialCurrencyRatesState [("USD", 2), ("EUR", 3)])
      (.editCurrencyRate "USD" 5)
      [("USD", { rate := some 5, state := .dirty, confirmedRate := some 2 }),
       ("EUR", { rate := some 3, state := .accepted, confirmedRate := some 3 })]
      (by decide) "EUR" (by decide)⟩

/-! ### Unknown currency id (C5) -/

/-- C5, evaluated at the failing input: dispatching an edit for a key
absent from the seeded map does not abort or throw; `{...prev[id], ...}`
spreads `undefined` and silently appends a brand-new entry (with no
`confirmedRate` field), so the key set grows. -/
theorem edit_unknown_id_creates_entry :
    ratesReducer (initialCurrencyRatesState [("USD", 2)]) (.editCurrencyRate "EUR" 3)
      = some [("USD", { rate := some 2, state := .accepted, confirmedRate := some 2 }),
              ("EUR", { rate := some 3, state := .dirty, confirmedRate := none })] := by
  decide

/-! ### Invalid input guard (C9) -/

/-- A candidate value typed into the rate field: either a finite numeric
value or a non-numeric / non-finite one (NaN, Infinity, failed parse). -/
inductive InputValue where
  | numeric (r : ℚ)
  | invalid
deriving DecidableEq, Repr

/-- Modelled from the spec: the `NumberInput` collaborator lives in
`./utils`, outside src/.  Per §7, a non-numeric/non-finite edit is
"rejected before entering the state machine; no transition occurs": only a
finite numeric candidate is dispatched as `EditCurrencyRate`, an invalid
one is dropped without dispatching anything. -/
def editInputDispatch (s : RatesState) (id : String) (v : InputValue) : RatesState :=
  match v with
  | .numeric r => (ratesReducer s (.editCurrencyRate id r)).getD s
  | .invalid => s

/-- C9: a non-numeric/non-finite edit candidate causes no transition: the
whole state — in particular the entry's `rate` field — is unchanged. -/
theorem invalid_edit_leaves_state_unchanged (s : RatesState) (id : String) :
    editInputDispatch s id .invalid = s
    ∧ rateOf (editInputDispatch s id .invalid) id = rateOf s id :=
  ⟨rfl, rfl⟩

/-! ### Order total (C8) -/

/-- `Order` (declared in `./utils`; the fields are the ones App.tsx reads:
`id`, `title`, `price`, `currency`). -/
structure Order where
  id : String
  title : String
  price : ℚ
  currency : String
deriving DecidableEq, Repr

/-- Modelled from the spec: `getBaseCurrencyPrice` lives in `./utils`,
outside src/.  It converts an order's price to the base currency using an
exchange rate; §8 fixes its behaviour (price 10 at confirmed rate 2 gives
20), i.e. multiplication by the rate. -/
def getBaseCurrencyPrice (price rate : ℚ) : ℚ := price * rate

/-- The list of per-order base-currency prices built by `OrderTotal`
(App.tsx 330-336): `getBaseCurrencyPrice(order.price,
currencyRates[order.currency].confirmedRate)` for each order.  `none`
models the run not producing a number: a `TypeError` on a missing currency
key, or a `NaN` result from an entry whose `confirmedRate` field is
absent. -/
def basePrices (rates : RatesState) : List Order → Option (List ℚ)
  | [] => some []
  | o :: os =>
      match (confirmedRateOf rates o.currency).map (getBaseCurrencyPrice o.price) with
      | none => none
      | some p => (basePrices rates os).map (p :: ·)

/-- `OrderTotal`'s reduce (App.tsx 337): sum the prices starting from 0. -/
def orderTotal (rates : RatesState) (orders : List Order) : Option ℚ :=
  (basePrices rates orders).map (List.foldl (· + ·) 0)

theorem basePrices_eq (rates : RatesState) (f : Order → ℚ) :
    ∀ orders : List Order,
      (∀ o ∈ orders, confirmedRateOf rates o.currency = some (f o)) →
      basePrices rates orders
        = some (orders.map fun o => getBaseCurrencyPrice o.price (f o))
  | [], _ => rfl
  | o :: os, h => by
      have ho := h o (List.mem_cons_self o os)
      have hos := basePrices_eq rates f os fun o' ho' => h o' (List.mem_cons_of_mem _ ho')
      simp [basePrices, ho, hos]

/-- The base prices depend on the rate map only through `confirmedRateOf`. -/
theorem basePrices_congr {s1 s2 : RatesState}
    (h : ∀ c, confirmedRateOf s1 c = confirmedRateOf s2 c) :
    ∀ orders : List Order, basePrices s1 orders = basePrices s2 orders
  | [] => rfl
  | o :: os => by simp [basePrices, h o.currency, basePrices_congr h os]

/-- C8: the order total is the sum over all orders of
`getBaseCurrencyPrice(price, confirmedRate(currency))`; it reads only
confirmed rates, so a raw rate edit never changes it; and a single order
of price 10 in a currency whose confirmed rate is 2 totals 20. -/
theorem order_total_reads_confirmed_rate :
    (∀ (rates : RatesState) (orders : List Order) (f : Order → ℚ),
        (∀ o ∈ orders, confirmedRateOf rates o.currency = some (f o)) →
        orderTotal rates orders
          = some ((orders.map fun o => getBaseCurrencyPrice o.price (f o)).foldl (· + ·) 0))
    ∧ (∀ (rates : RatesState) (id : String) (r : ℚ) (s' : RatesState)
        (orders : List Order),
        ratesReducer rates (.editCurrencyRate id r) = some s' →
        orderTotal s' orders = orderTotal rates orders)
    ∧ ∀ rates : RatesState, confirmedRateOf rates "USD" = some 2 →
        orderTotal rates [{ id := "o1", title := "art", price := 10, currency := "USD" }]
          = some 20 := by
  refine ⟨?_, ?_, ?_⟩
  · intro rates orders f h
    rw [orderTotal, basePrices_eq rates f orders h]
    rfl
  · intro rates id r s' orders h
    rw [orderTotal, orderTotal,
      basePrices_congr (fun c => confirmedRateOf_after_edit rates id r s' h c) orders]
  · intro rates h
    simp [orderTotal, basePrices, h, getBaseCurrencyPrice]
    norm_num

-- Witness for C8: the concrete one-order total over a seeded map.
theorem order_total_reads_confirmed_rate_witness :
    confirmedRateOf (initialCurrencyRatesState [("USD", 2)]) "USD" = some 2
    ∧ orderTotal (initialCurrencyRatesState [("USD", 2)])
        [{ id := "o1", title := "art", price := 10, currency := "USD" }] = some 20 :=
  ⟨by decide,
    order_total_reads_confirmed_rate.2.2 (initialCurrencyRatesState [("USD", 2)]) (by decide)⟩

/-! ### Keyed debounce (C7) -/

/-- The bookkeeping of `useKeyedDebounce` (App.tsx 136-149): for each key,
the payload (the rate the timer will hand to the validation callback) of
its pending — scheduled but not yet fired — timer, if any. -/
abbrev DebounceMap := String → Option ℚ

/-- One call of the debounced function (App.tsx 142-148): `clearTimeout`
any pending timer for `id`, then store a fresh timer carrying `r`. -/
def scheduleDebounce (m : DebounceMap) (id : String) (r : ℚ) : DebounceMap :=
  Function.update m id (some r)

/-- The events the debounce component reacts to: a call for a key (from an
edit) or the expiry of that key's pending timer. -/
inductive DebounceEvent where
  | call (id : String) (r : ℚ)
  | fire (id : String)

/-- One event step: the new map and the dispatches emitted.  A firing
timer invokes the callback with its stored payload; a fire with no pending
timer (it was cancelled) dispatches nothing. -/
def debounceStep (m : DebounceMap) : DebounceEvent → DebounceMap × List (String × ℚ)
  | .call id r => (scheduleDebounce m id r, [])
  | .fire id =>
      match m id with
      | some r => (Function.update m id none, [(id, r)])
      | none => (m, [])

/-- Run a sequence of debounce events, collecting dispatches in order. -/
def debounceRun (m : DebounceMap) : List DebounceEvent → DebounceMap × List (String × ℚ)
  | [] => (m, [])
  | e :: es =>
      let st := debounceStep m e
      let rest := debounceRun st.1 es
      (rest.1, st.2 ++ rest.2)

/-- A burst of calls for one key dispatches nothing and leaves the key's
pending timer holding the last payload of the burst. -/
theorem debounceRun_calls (id : String) (rlast : ℚ) :
    ∀ rs : List ℚ, rs.getLast? = some rlast →
      ∀ (m : DebounceMap) (es : List DebounceEvent),
      debounceRun m (rs.map (DebounceEvent.call id) ++ es)
        = debounceRun (Function.update m id (some rlast)) es
  | [], h => by simp at h
  | [r], h => by
      intro m es
      have hr : r = rlast := by simpa using h
      subst hr
      simp [debounceRun, debounceStep, scheduleDebounce]
  | r :: r' :: rs, h => by
      intro m es
      have h' : (r' :: rs).getLast? = some rlast := by
        simpa [List.getLast?_cons_cons] using h
      calc debounceRun m (((r :: r' :: rs).map (DebounceEvent.call id)) ++ es)
          = debounceRun (Function.update m id (some r))
              (((r' :: rs).map (DebounceEvent.call id)) ++ es) := by
            simp [debounceRun, debounceStep, scheduleDebounce]
        _ = debounceRun (Function.update (Function.update m id (some r)) id (some rlast)) es :=
            debounceRun_calls id rlast (r' :: rs) h' _ es
        _ = debounceRun (Function.update m id (some rlast)) es := by
            rw [Function.update_idem]

/-- C7: N rapid calls for one key followed by that key's timer firing
dispatch exactly once, carrying the last payload; scheduling for a key
replaces (cancels) that key's pending schedule outright; and scheduling
for one key never touches another key's pending schedule. -/
theorem keyed_debounce_coalesces :
    (∀ (m : DebounceMap) (id : String) (rs : List ℚ) (rlast : ℚ),
        rs.getLast? = some rlast →
        (debounceRun m (rs.map (DebounceEvent.call id) ++ [.fire id])).2 = [(id, rlast)])
    ∧ (∀ (m : DebounceMap) (id : String) (r1 r2 : ℚ),
        scheduleDebounce (scheduleDebounce m id r1) id r2 = scheduleDebounce m id r2)
    ∧ ∀ (m : DebounceMap) (id : String) (r : ℚ) (j : String), j ≠ id →
        scheduleDebounce m id r j = m j := by
  refine ⟨?_, ?_, ?_⟩
  · intro m id rs rlast h
    rw [debounceRun_calls id rlast rs h m [.fire id]]
    simp [debounceRun, debounceStep, Function.update_same]
  · intro m id r1 r2
    simp [scheduleDebounce, Function.update_idem]
  · intro m id r j hj
    simp [scheduleDebounce, Function.update_noteq hj]

-- Witness for C7: two rapid edits of "USD" (1.2 then 1.3) and one firing,
-- dispatching exactly once with 1.3.
theorem keyed_debounce_coalesces_witness :
    ([(6:ℚ)/5, 13/10].getLast? = some (13/10))
    ∧ (debounceRun (fun _ => none)
          ([(6:ℚ)/5, 13/10].map (DebounceEvent.call "USD") ++ [.fire "USD"])).2
        = [("USD", 13/10)] :=
  ⟨rfl, keyed_debounce_coalesces.1 (fun _ => none) "USD" [6/5, 13/10] (13/10) rfl⟩

/-! ### At most one in-flight validation per key (C4)

`CurrenciesProvider` (App.tsx 109-134) wires the pieces together: an
`EditCurrencyRate` dispatch also schedules the debounced call; when a
key's timer fires, the callback dispatches `StartIsValidRequest`, awaits
`isCurrecyRateValid`, and dispatches `IsValidResult`.  The rate input for
a currency is rendered with `disabled` while that entry is `IN_PROGRESS`
(App.tsx 207/221), and per §5 the host event loop processes events one at
a time, so a user edit for a key can only occur while that key's entry is
not `IN_PROGRESS`. -/

/-- Entry-state lemmas for the target key of each transition. -/
theorem entryStateOf_after_edit {s s' : RatesState} {id : String} {r : ℚ}
    (h : ratesReducer s (.editCurrencyRate id r) = some s') :
    entryStateOf s' id = some .dirty := by
  rw [ratesReducer_edit] at h
  injection h with h
  subst h
  simp [entryStateOf, lookupRate_setEntry_self]

theorem entryStateOf_after_start {s s' : RatesState} {id : String}
    (h : ratesReducer s (.startIsValidRequest id) = some s') :
    entryStateOf s' id = some .inProgress := by
  rw [ratesReducer_start] at h
  injection h with h
  subst h
  simp [entryStateOf, lookupRate_setEntry_self]

theorem entryStateOf_after_resolve {s s' : RatesState} {id : String} {result : Bool}
    (h : ratesReducer s (.isValidResult id result) = some s') :
    entryStateOf s' id = some .accepted := by
  cases hle : lookupRate s id with
  | none => rw [ratesReducer_resolve_missing s id result hle] at h; cases h
  | some e =>
      rw [ratesReducer_resolve s id result e hle] at h
      injection h with h
      subst h
      simp [entryStateOf, lookupRate_setEntry_self]

theorem entryStateOf_frame {s s' : RatesState} {a : RatesAction}
    (h : ratesReducer s a = some s') {j : String} (hj : j ≠ a.target) :
    entryStateOf s' j = entryStateOf s j := by
  simp [entryStateOf, lookupRate_ratesReducer_ne h j hj]

/-- The whole provider state: the rate map, each key's pending debounce
timer (carrying the rate it will validate), and the number of in-flight
`isCurrecyRateValid` calls per key. -/
structure SysState where
  rates : RatesState
  timers : String → Option ℚ
  inflight : String → Nat

/-- One event of the single-threaded event loop:
* `userEdit` — the rate input dispatches `EditCurrencyRate` and
  (re)schedules the debounced call for that key; it is guarded by the
  input not being disabled, i.e. the entry not being `IN_PROGRESS`;
* `timerFire` — a pending debounce timer expires, its callback dispatches
  `StartIsValidRequest` and puts one validation call in flight;
* `resolve` — an in-flight validation call returns; its continuation
  dispatches `IsValidResult`. -/
inductive SysStep : SysState → SysState → Prop where
  | userEdit : ∀ (s : SysState) (id : String) (r : ℚ) (s' : RatesState),
      entryStateOf s.rates id ≠ some .inProgress →
      ratesReducer s.rates (.editCurrencyRate id r) = some s' →
      SysStep s ⟨s', Function.update s.timers id (some r), s.inflight⟩
  | timerFire : ∀ (s : SysState) (id : String) (r : ℚ) (s' : RatesState),
      s.timers id = some r →
      ratesReducer s.rates (.startIsValidRequest id) = some s' →
      SysStep s ⟨s', Function.update s.timers id none,
        Function.update s.inflight id (s.inflight id + 1)⟩
  | resolve : ∀ (s : SysState) (id : String) (result : Bool) (s' : RatesState),
      1 ≤ s.inflight id →
      ratesReducer s.rates (.isValidResult id result) = some s' →
      SysStep s ⟨s', s.timers, Function.update s.inflight id (s.inflight id - 1)⟩

/-- System states reachable from startup: the seeded map, no pending
timers, nothing in flight. -/
inductive SysReachable (seed : List (String × ℚ)) : SysState → Prop where
  | init : SysReachable seed ⟨initialCurrencyRatesState seed, fun _ => none, fun _ => 0⟩
  | step : ∀ {s t : SysState}, SysReachable seed s → SysStep s t → SysReachable seed t

/-- Per key: at most one call in flight; while one is, the entry is
`IN_PROGRESS` and no timer is pending; and an `IN_PROGRESS` entry means
exactly one call in flight. -/
def ValidationCycleInv (s : SysState) : Prop :=
  ∀ id : String,
    s.inflight id ≤ 1
    ∧ (s.inflight id = 1 →
        entryStateOf s.rates id = some .inProgress ∧ s.timers id = none)
    ∧ (entryStateOf s.rates id = some .inProgress → s.inflight id = 1)

theorem validationCycleInv_init (seed : List (String × ℚ)) :
    ValidationCycleInv ⟨initialCurrencyRatesState seed, fun _ => none, fun _ => 0⟩ := by
  intro id
  refine ⟨by simp, by simp, ?_⟩
  intro hip
  exfalso
  simp only [entryStateOf] at hip
  cases hle : lookupRate (initialCurrencyRatesState seed) id with
  | none => rw [hle] at hip; simp at hip
  | some e =>
      obtain ⟨r, hr⟩ := lookupRate_initial seed id e hle
      rw [hle, hr] at hip
      simp at hip

theorem validationCycleInv_preserved {s t : SysState}
    (hinv : ValidationCycleInv s) (hstep : SysStep s t) : ValidationCycleInv t := by
  cases hstep with
  | userEdit id r s' hguard hred =>
      intro j
      obtain ⟨h1, h2, h3⟩ := hinv j
      by_cases hj : j = id
      · subst hj
        refine ⟨h1, ?_, ?_⟩
        · intro hone
          exact absurd (h2 hone).1 hguard
        · intro hip
          have hip' : entryStateOf s' j = some .inProgress := hip
          rw [entryStateOf_after_edit hred] at hip'
          simp at hip'
      · have hj' : j ≠ (RatesAction.editCurrencyRate id r).target := hj
        refine ⟨h1, ?_, ?_⟩
        · intro hone
          obtain ⟨ha, hb⟩ := h2 hone
          constructor
          · show entryStateOf s' j = some .inProgress
            rw [entryStateOf_frame hred hj']
            exact ha
          · show Function.update s.timers id (some r) j = none
            rw [Function.update_noteq hj]
            exact hb
        · intro hip
          have hip' : entryStateOf s' j = some .inProgress := hip
          rw [entryStateOf_frame hred hj'] at hip'
          exact h3 hip'
  | timerFire id r s' hguard hred =>
      intro j
      obtain ⟨h1, h2, h3⟩ := hinv j
      by_cases hj : j = id
      · subst hj
        have hne1 : s.inflight j ≠ 1 := by
          intro hone
          have hb := (h2 hone).2
          rw [hguard] at hb
          cases hb
        have h0 : s.inflight j = 0 := by omega
        refine ⟨?_, ?_, ?_⟩
        · show Function.update s.inflight j (s.inflight j + 1) j ≤ 1
          rw [Function.update_same]
          omega
        · intro _
          constructor
          · show entryStateOf s' j = some .inProgress
            exact entryStateOf_after_start hred
          · show Function.update s.timers j none j = none
            rw [Function.update_same]
        · intro _
          show Function.update s.inflight j (s.inflight j + 1) j = 1
          rw [Function.update_same]
          omega
      · have hj' : j ≠ (RatesAction.startIsValidRequest id).target := hj
        refine ⟨?_, ?_, ?_⟩
        · show Function.update s.inflight id (s.inflight id + 1) j ≤ 1
          rw [Function.update_noteq hj]
          exact h1
        · intro hone
          have hone' : Function.update s.inflight id (s.inflight id + 1) j = 1 := hone
          rw [Function.update_noteq hj] at hone'
          obtain ⟨ha, hb⟩ := h2 hone'
          constructor
          · show entryStateOf s' j = some .inProgress
            rw [entryStateOf_frame hred hj']
            exact ha
          · show Function.update s.timers id none j = none
            rw [Function.update_noteq hj]
            exact hb
        · intro hip
          have hip' : entryStateOf s' j = some .inProgress := hip
          rw [entryStateOf_frame hred hj'] at hip'
          show Function.update s.inflight id (s.inflight id + 1) j = 1
          rw [Function.update_noteq hj]
          exact h3 hip'
  | resolve id result s' hguard hred =>
      intro j
      obtain ⟨h1, h2, h3⟩ := hinv j
      by_cases hj : j = id
      · subst hj
        have hone : s.inflight j = 1 := by omega
        refine ⟨?_, ?_, ?_⟩
        · show Function.update s.inflight j (s.inflight j - 1) j ≤ 1
          rw [Function.update_same]
          omega
        · intro hz
          have hz' : Function.update s.inflight j (s.inflight j - 1) j = 1 := hz
          rw [Function.update_same, hone] at hz'
          exact absurd hz' (by omega)
        · intro hip
          have hip' : entryStateOf s' j = some .inProgress := hip
          rw [entryStateOf_after_resolve hred] at hip'
          simp at hip'
      · have hj' : j ≠ (RatesAction.isValidResult id result).target := hj
        refine ⟨?_, ?_, ?_⟩
        · show Function.update s.inflight id (s.inflight id - 1) j ≤ 1
          rw [Function.update_noteq hj]
          exact h1
        · intro hone
          have hone' : Function.update s.inflight id (s.inflight id - 1) j = 1 := hone
          rw [Function.update_noteq hj] at hone'
          obtain ⟨ha, hb⟩ := h2 hone'
          constructor
          · show entryStateOf s' j = some .inProgress
            rw [entryStateOf_frame hred hj']
            exact ha
          · exact hb
        · intro hip
          have hip' : entryStateOf s' j = some .inProgress := hip
          rw [entryStateOf_frame hred hj'] at hip'
          show Function.update s.inflight id (s.inflight id - 1) j = 1
          rw [Function.update_noteq hj]
          exact h3 hip'

theorem validationCycleInv_reachable {seed : List (String × ℚ)} {s : SysState}
    (h : SysReachable seed s) : ValidationCycleInv s := by
  induction h with
  | init => exact validationCycleInv_init seed
  | step _ hstep ih => exact validationCycleInv_preserved ih hstep

/-- C4: in every reachable provider state, at most one validation call is
in flight per currency key — between a `StartIsValidRequest` and its
`IsValidResult`, no second request for the same key can start, for every
interleaving of UI edit events, debounce-timer firings, and validation
resolutions. -/
theorem at_most_one_inflight_validation (seed : List (String × ℚ)) (s : SysState)
    (hreach : SysReachable seed s) (id : String) : s.inflight id ≤ 1 :=
  (validationCycleInv_reachable hreach id).1

-- Witness for C4: the startup state is reachable and has nothing in flight.
theorem at_most_one_inflight_validation_witness :
    (⟨initialCurrencyRatesState [("USD", 2)], fun _ => none, fun _ => 0⟩
        : SysState).inflight "USD" ≤ 1 :=
  at_most_one_inflight_validation [("USD", 2)] _ SysReachable.init "USD"

end CurrenciesDemo
